import Mathlib

/-!
Verification of the client-side organization core of the `apto` app
(Svelte components under `src/lib/components`), shallowly embedded in Lean.

The embedding follows the TypeScript source:
* notes list handling (`NotesManagement.svelte`, `NoteEditor.svelte`):
  `sortNotes`, `prepareNotesWithTagColors`, `performSearch` (with the
  external `invoke` result passed in as an `Except` parameter), the
  post-reload selection reconciliation of `loadNotesBasedOnSelection`
  and the post-create selection step of `saveNewNote`;
* the folder sidebar (`buildFolderHierarchy` / `addSubfoldersToHierarchy`),
  with a fuel parameter making the unbounded recursion total;
* habit recurrence display and encoding (`getFrequencyDisplay` of
  `ViewHabits.svelte`, `getFrequencyData` of the habit form);
* the contrast color computation of `NotesList.svelte`
  (`getContrastTextColor`).

JavaScript strings are Lean `String`s, numbers are `Int`/`Nat`
(`updated_at` is embedded as the millisecond timestamp that
`new Date(x).getTime()` yields), `null`/`undefined` become `Option`,
and a rejected promise becomes an `Except.error` argument.
-/

/-! ## Data model -/

/-- A note as returned by the backend: `id`, `title`, `content`,
`is_pinned`, `updated_at` (embedded as the parsed timestamp), the tag
names, and the `tag_colors` mapping added by
`prepareNotesWithTagColors`. -/
structure Note where
  id : Int
  title : String
  content : String
  is_pinned : Bool
  updated_at : Int
  tags : List String
  tag_colors : List (String × String)
deriving Repr, DecidableEq

/-- A tag: name and color; the empty color string stands for a
missing/falsy `color` field. -/
structure Tag where
  name : String
  color : String
deriving Repr, DecidableEq

/-- A folder row as returned by `get_folders`: `id`, `name` and the
nullable `parent_id`. -/
structure Folder where
  id : Int
  name : String
  parent_id : Option Int
deriving Repr, DecidableEq

/-! ## String helpers (JavaScript semantics) -/

/-- Does `needle` occur as a contiguous run inside `hay`?  Checked at
every suffix, as `String.prototype.includes` does. -/
def jsIncludesAux (needle : List Char) : List Char → Bool
  | [] => needle.isEmpty
  | c :: rest =>
      (List.take needle.length (c :: rest) == needle) || jsIncludesAux needle rest

/-- JavaScript `s.includes(sub)`: substring containment. -/
def jsIncludes (s sub : String) : Bool :=
  jsIncludesAux sub.toList s.toList

/-- JavaScript `s.startsWith(pre)` (the Lean library version is
byte-position based and does not reduce in the kernel, so the embedding
works on the character list). -/
def jsStartsWith (s pre : String) : Bool :=
  s.toList.take pre.length == pre.toList

/-- JavaScript `s.toLowerCase()`, character by character. -/
def jsToLower (s : String) : String :=
  String.mk (s.toList.map Char.toLower)

/-- JavaScript `!s.trim()`: the string is empty after trimming, i.e.
all of its characters are whitespace. -/
def jsBlank (s : String) : Bool :=
  s.toList.all Char.isWhitespace

/-! ## `sortNotes` (NotesManagement.svelte, lines 40-51)

The comparator returns a negative number when `a` must precede `b`:
pinned notes first, then `updated_at` descending.  `Array.prototype.sort`
is a stable sort with respect to the comparator, so the embedding is a
stable `mergeSort` by the relation "comparator result is not positive". -/

/-- The JS comparator of `sortNotes`, as the Bool relation
"`a` may come before `b`" (comparator value `<= 0`). -/
def noteLE (a b : Note) : Bool :=
  if a.is_pinned && !b.is_pinned then true
  else if !a.is_pinned && b.is_pinned then false
  else decide (b.updated_at ≤ a.updated_at)

/-- `sortNotes`: stable sort, pinned first, then `updated_at`
descending. -/
def sortNotes (notesToSort : List Note) : List Note :=
  notesToSort.mergeSort noteLE

/-! ## `prepareNotesWithTagColors` (NotesManagement.svelte, lines 54-77) -/

/-- For each tag name of the note, look its color up in the tag list and
record it when the tag exists and has a truthy color. -/
def prepareNotesWithTagColors (loadedNotes : List Note) (tagsList : List Tag) :
    List Note :=
  loadedNotes.map fun note =>
    { note with
      tag_colors := note.tags.filterMap fun tagName =>
        match tagsList.find? (fun t => t.name == tagName) with
        | some tag => if tag.color ≠ "" then some (tagName, tag.color) else none
        | none => none }

/-! ## Search (`performSearch`) and load state

`NotesManagement.svelte` and `NoteEditor.svelte` each hold the states
`notes`, `allNotes`, `tags`, `isSearching` and each define a
`performSearch` with the identical failure fallback; they differ in the
empty-query branch and, crucially, in whether their load routine ever
assigns `allNotes`. -/

/-- The shared mutable state of either notes component. -/
structure NotesState where
  notes : List Note
  allNotes : List Note
  tags : List Tag
  isSearching : Bool
deriving Repr, DecidableEq

/-- The substring filter used by the `performSearch` catch branch:
case-insensitive match of the query against title or content. -/
def searchFallbackFilter (searchQuery : String) (coll : List Note) : List Note :=
  coll.filter fun note =>
    jsIncludes (jsToLower note.title) (jsToLower searchQuery) ||
      jsIncludes (jsToLower note.content) (jsToLower searchQuery)

/-- `loadNotesBasedOnSelection` of `NotesManagement.svelte` (success
path, notes assignment only): `notes` receives the color-prepared load
result; `allNotes` is NOT assigned anywhere in this component. -/
def nmLoadNotes (st : NotesState) (loadedNotes : List Note) : NotesState :=
  { st with notes := prepareNotesWithTagColors loadedNotes st.tags }

/-- `performSearch` of `NotesManagement.svelte` (lines 249-272).  The
`invoke("search_notes")` outcome is the `searchResult` argument; the
empty-query branch calls `loadNotesBasedOnSelection`, abstracted as
`reload`. -/
def nmPerformSearch (reload : NotesState → NotesState) (searchQuery : String)
    (searchResult : Except String (List Note)) (st : NotesState) : NotesState :=
  if jsBlank searchQuery then reload st
  else
    match searchResult with
    | Except.ok searchResults =>
        { st with notes := prepareNotesWithTagColors searchResults st.tags,
                  isSearching := false }
    | Except.error _ =>
        { st with notes := searchFallbackFilter searchQuery st.allNotes,
                  isSearching := false }

/-- `loadNotes` of `NoteEditor.svelte` (success path): stores the
color-prepared result in BOTH `allNotes` and `notes`. -/
def neLoadNotes (st : NotesState) (loadedNotes : List Note) : NotesState :=
  let notesWithColors := prepareNotesWithTagColors loadedNotes st.tags
  { st with allNotes := notesWithColors, notes := notesWithColors }

/-- `performSearch` of `NoteEditor.svelte` (lines 502-525); its
empty-query branch shows `allNotes` directly. -/
def nePerformSearch (searchQuery : String)
    (searchResult : Except String (List Note)) (st : NotesState) : NotesState :=
  if jsBlank searchQuery then { st with notes := st.allNotes }
  else
    match searchResult with
    | Except.ok searchResults =>
        { st with notes := prepareNotesWithTagColors searchResults st.tags,
                  isSearching := false }
    | Except.error _ =>
        { st with notes := searchFallbackFilter searchQuery st.allNotes,
                  isSearching := false }

/-! ## Selection reconciliation (NotesManagement.svelte) -/

/-- The selection update at the end of `loadNotesBasedOnSelection`
(lines 120-129): keep the selected id if the reloaded list still has it
(taking the fresh object), otherwise clear the selection. -/
def reconcileSelection (notes : List Note) (selectedNote : Option Note) :
    Option Note :=
  match selectedNote with
  | none => none
  | some sn =>
      match notes.find? (fun n => n.id == sn.id) with
      | some updatedNote => some updatedNote
      | none => none

/-- The post-reload step of `saveNewNote` (lines 306-315): look the id
returned by `create_note` up in the reloaded list and select it when
found. -/
def selectNewNote (notes : List Note) (newNoteId : Int)
    (selectedNote : Option Note) : Option Note :=
  match notes.find? (fun note => note.id == newNoteId) with
  | some newNote => some newNote
  | none => selectedNote

/-! ## Habit recurrence (ViewHabits.svelte / habit form) -/

/-- The ad-hoc object shapes used for `frequency`: one capitalized key
per variant, plus a shape recognized as an object but matching no
variant (`UnknownShape`).  An absent frequency is `Option.none` at the
use sites. -/
inductive FrequencyObj where
  | Daily : FrequencyObj
  | Weekly (days : List Nat) : FrequencyObj
  | Monthly (days : List Nat) : FrequencyObj
  | Interval (days : Nat) : FrequencyObj
  | Custom (pattern : String) : FrequencyObj
  | UnknownShape : FrequencyObj
deriving Repr, DecidableEq

/-- The `daysOfWeek` table of `ViewHabits.svelte`. -/
def daysOfWeek : List (Nat × String) :=
  [(1, "Monday"), (2, "Tuesday"), (3, "Wednesday"), (4, "Thursday"),
   (5, "Friday"), (6, "Saturday"), (7, "Sunday")]

/-- One mapped element of the Weekly display: `name.substring(0, 3)`
when the id is found, the raw day number otherwise. -/
def dayAbbrev (day : Nat) : String :=
  match daysOfWeek.find? (fun d => d.1 == day) with
  | some dayObj => String.mk (dayObj.2.toList.take 3)
  | none => toString day

/-- `getFrequencyDisplay` (ViewHabits.svelte, lines 36-64). -/
def getFrequencyDisplay (frequency : Option FrequencyObj) : String :=
  match frequency with
  | none => "Daily"
  | some FrequencyObj.Daily => "Daily"
  | some (FrequencyObj.Weekly days) =>
      if days.length == 7 then "Every day"
      else "Weekly: " ++ String.intercalate ", " (days.map dayAbbrev)
  | some (FrequencyObj.Monthly days) =>
      "Monthly on day" ++ (if days.length > 1 then "s" else "") ++ ": " ++
        String.intercalate ", " (days.map toString)
  | some (FrequencyObj.Interval days) =>
      let interval := if days == 0 then 1 else days
      "Every " ++ toString interval ++ " day" ++ (if interval > 1 then "s" else "")
  | some (FrequencyObj.Custom pattern) => "Custom: " ++ pattern
  | some FrequencyObj.UnknownShape => "Unknown"

/-- `getFrequencyData` (habit form, lines 304-338): the encoder from the
form state (`habitFrequencyType` discriminator, day selections, interval,
custom pattern) to a frequency object.  `habitFrequencyInterval || 1`
coerces a zero/missing interval to 1. -/
def getFrequencyData (habitFrequencyType : String)
    (habitFrequencyDays : List Nat) (habitFrequencyInterval : Nat)
    (habitFrequencyCustomPattern : String) : FrequencyObj :=
  if habitFrequencyType == "daily" then FrequencyObj.Daily
  else if habitFrequencyType == "weekly" then
    FrequencyObj.Weekly
      (if habitFrequencyDays.length > 0 then habitFrequencyDays
       else [1, 2, 3, 4, 5])
  else if habitFrequencyType == "monthly" then
    FrequencyObj.Monthly habitFrequencyDays
  else if habitFrequencyType == "interval" then
    FrequencyObj.Interval
      (if habitFrequencyInterval == 0 then 1 else habitFrequencyInterval)
  else if habitFrequencyType == "custom" then
    FrequencyObj.Custom habitFrequencyCustomPattern
  else FrequencyObj.Daily

/-! ## Contrast text color (NotesList.svelte, lines 99-131) -/

/-- Value of a single hexadecimal digit, `none` when the character is
not one. -/
def hexVal (c : Char) : Option Nat :=
  if '0' ≤ c ∧ c ≤ '9' then some (c.toNat - 48)
  else if 'a' ≤ c ∧ c ≤ 'f' then some (c.toNat - 87)
  else if 'A' ≤ c ∧ c ≤ 'F' then some (c.toNat - 55)
  else none

/-- JavaScript `parseInt(s, 16)` on a two-character string: parses the
longest valid digit run from the left; `none` models `NaN`. -/
def parseIntHex2 (c1 c2 : Char) : Option Nat :=
  match hexVal c1, hexVal c2 with
  | none, _ => none
  | some d1, none => some d1
  | some d1, some d2 => some (16 * d1 + d2)

/-- The final YIQ comparison: `(r*299 + g*587 + b*114) / 1000 >= 128`.
A `NaN` channel (a `none`) makes the comparison false, hence white;
otherwise the float comparison coincides with the integer one against
128000. -/
def yiqColor (r g b : Option Nat) : String :=
  match r, g, b with
  | some r, some g, some b =>
      if 128000 ≤ r * 299 + g * 587 + b * 114 then "#000000" else "#ffffff"
  | _, _, _ => "#ffffff"

/-- `getContrastTextColor` (NotesList.svelte). -/
def getContrastTextColor (hexColor : String) : String :=
  if ¬ jsStartsWith hexColor "#" then "inherit"
  else
    match hexColor.toList with
    | [_, c1, c2, c3] =>
        yiqColor (parseIntHex2 c1 c1) (parseIntHex2 c2 c2) (parseIntHex2 c3 c3)
    | [_, c1, c2, c3, c4, c5, c6] =>
        yiqColor (parseIntHex2 c1 c2) (parseIntHex2 c3 c4) (parseIntHex2 c5 c6)
    | _ => "inherit"

/-! ## Folder hierarchy (NotesManagement.svelte, lines 149-201)

`buildFolderHierarchy` pushes the synthetic "All Notes" entry, then each
root folder (at level 1) followed by `addSubfoldersToHierarchy`, which
pushes the subfolders depth-first (children at the parent's level + 1).
The JS recursion has no termination guard, so the embedding carries a
fuel parameter that decreases on every descent into children; `none`
means the fuel ran out, i.e. the recursion reached that depth.  The
functions are built with `Nat.rec` so they compute by reduction. -/

/-- An element of the hierarchy array: the spread folder fields
(`id`, `name`, `parent_id`) plus `level` and `hasChildren`.  The
synthetic "All Notes" entry has `id = none`. -/
structure HierarchyEntry where
  id : Option Int
  name : String
  level : Nat
  hasChildren : Bool
  parent_id : Option Int
deriving Repr, DecidableEq

/-- The synthetic first entry of the hierarchy. -/
def allNotesEntry : HierarchyEntry :=
  { id := none, name := "All Notes", level := 0, hasChildren := false,
    parent_id := none }

/-- The entry pushed for folder `f` at `level`:
`hasChildren = folders.some(c => c.parent_id === f.id)`. -/
def hierEntry (folders : List Folder) (f : Folder) (level : Nat) :
    HierarchyEntry :=
  { id := some f.id, name := f.name, level := level,
    hasChildren := folders.any (fun c => c.parent_id == some f.id),
    parent_id := f.parent_id }

/-- Sequence a per-folder traversal over a list of sibling folders,
concatenating the produced segments; `none` as soon as one sibling
fails.  This is the `for` loop shared by `buildFolderHierarchy` (over
the roots) and `addSubfoldersToHierarchy` (over the subfolders). -/
def subforestWith {α : Type} (tr : Folder → Nat → Option (List α)) :
    List Folder → Nat → Option (List α)
  | [], _ => some []
  | c :: cs, level =>
      match tr c level, subforestWith tr cs level with
      | some l1, some l2 => some (l1 ++ l2)
      | _, _ => none

/-- The subtree rooted at a folder: its own entry at `level`, then the
entries of its subfolders (`folders.filter(c => c.parent_id === f.id)`)
at `level + 1`, depth-first.  Fuel bounds the recursion depth. -/
def subtreeFuel (folders : List Folder) (fuel : Nat) :
    Folder → Nat → Option (List HierarchyEntry) :=
  Nat.rec (motive := fun _ => Folder → Nat → Option (List HierarchyEntry))
    (fun _ _ => none)
    (fun _ ih f level =>
      match subforestWith ih
          (folders.filter fun c => c.parent_id == some f.id) (level + 1) with
      | none => none
      | some rest => some (hierEntry folders f level :: rest))
    fuel

/-- `buildFolderHierarchy`: the "All Notes" entry, then the subtree of
every root folder (`parent_id === null`) in input order, roots at
level 1. -/
def buildFolderHierarchy (folders : List Folder) (fuel : Nat) :
    Option (List HierarchyEntry) :=
  match subforestWith (subtreeFuel folders fuel)
      (folders.filter fun f => f.parent_id == none) 1 with
  | none => none
  | some l => some (allNotesEntry :: l)

/-! ### Specification-side traversal (for the refinement claim)

The spec describes the output as: the synthetic entry, then every root
folder in input order, each immediately followed by its descendants in
depth-first pre-order with `level` = depth, where each entry's
`hasChildren` holds iff some input folder names it as parent.  The
spec-side definition first performs the pure pre-order traversal into
`(folder, level)` pairs and only then decorates each pair into an
entry. -/

/-- Spec side: `true` iff at least one folder of the input has
`parent_id` equal to the given id. -/
def hasChildrenSpec (folders : List Folder) (i : Int) : Bool :=
  folders.any fun c => c.parent_id == some i

/-- Spec side: depth-first pre-order over the descendants of a folder,
as `(folder, level)` pairs. -/
def specTreeFuel (folders : List Folder) (fuel : Nat) :
    Folder → Nat → Option (List (Folder × Nat)) :=
  Nat.rec (motive := fun _ => Folder → Nat → Option (List (Folder × Nat)))
    (fun _ _ => none)
    (fun _ ih f level =>
      match subforestWith ih
          (folders.filter fun c => c.parent_id == some f.id) (level + 1) with
      | none => none
      | some rest => some ((f, level) :: rest))
    fuel

/-- Spec side: the decoration of one traversal pair into an entry. -/
def specEntry (folders : List Folder) (p : Folder × Nat) : HierarchyEntry :=
  { id := some p.1.id, name := p.1.name, level := p.2,
    hasChildren := hasChildrenSpec folders p.1.id,
    parent_id := p.1.parent_id }

/-- Spec side: the whole hierarchy per the specification's wording. -/
def specHierarchy (folders : List Folder) (fuel : Nat) :
    Option (List HierarchyEntry) :=
  match subforestWith (specTreeFuel folders fuel)
      (folders.filter fun f => f.parent_id == none) 1 with
  | none => none
  | some ps => some (allNotesEntry :: ps.map (specEntry folders))

/-! ### The parent-pointer relation, chains, acyclicity -/

/-- One parent-pointer edge: `c` is the id of an input folder whose
`parent_id` is `p`. -/
def pstep (folders : List Folder) (p c : Int) : Prop :=
  ∃ g ∈ folders, g.id = c ∧ g.parent_id = some p

/-- A downward chain of folder ids starting right below `p`. -/
def isChain (folders : List Folder) : Int → List Int → Prop
  | _, [] => True
  | p, c :: cs => pstep folders p c ∧ isChain folders c cs

/-- The parent-pointer relation has no cycle. -/
def Acyclic (folders : List Folder) : Prop :=
  ∀ i, ¬ Relation.TransGen (pstep folders) i i

/-- A folder whose parent chain ends at `null` inside the list. -/
inductive ReachesRoot (folders : List Folder) : Folder → Prop where
  | root (f : Folder) : f.parent_id = none → ReachesRoot folders f
  | step (f g : Folder) : g ∈ folders → f.parent_id = some g.id →
      ReachesRoot folders g → ReachesRoot folders f

/-! # Theorems -/

/-! ## Recurrence display (C4) -/

/-- Helper: a strictly increasing day list with values in `1..7` has
length 7 exactly when it contains every day. -/
theorem weekly_allDays_iff_length {days : List Nat}
    (hsorted : days.Pairwise (· < ·))
    (hrange : ∀ d ∈ days, d ∈ Finset.Icc 1 7) :
    days.length = 7 ↔ ∀ d ∈ Finset.Icc (1 : Nat) 7, d ∈ days := by
  have hnd : days.Nodup := hsorted.imp Nat.ne_of_lt
  have hsub : days.toFinset ⊆ Finset.Icc 1 7 := by
    intro d hd
    exact hrange d (List.mem_toFinset.mp hd)
  have hcard : days.toFinset.card = days.length :=
    List.toFinset_card_of_nodup hnd
  have hicc : (Finset.Icc (1 : Nat) 7).card = 7 := by decide
  constructor
  · intro hlen d hd
    have heq : days.toFinset = Finset.Icc 1 7 := by
      apply Finset.eq_of_subset_of_card_le hsub
      omega
    rw [← heq] at hd
    exact List.mem_toFinset.mp hd
  · intro hall
    have hsup : Finset.Icc (1 : Nat) 7 ⊆ days.toFinset := by
      intro d hd
      exact List.mem_toFinset.mpr (hall d hd)
    have heq : days.toFinset = Finset.Icc 1 7 :=
      Finset.Subset.antisymm hsub hsup
    rw [heq, hicc] at hcard
    omega

/-- Helper: a strictly increasing list is already sorted for the
`decide (a ≤ b)` comparison, so `mergeSort` leaves it unchanged. -/
theorem mergeSort_of_chain {days : List Nat}
    (hsorted : days.Pairwise (· < ·)) :
    days.mergeSort (fun a b => decide (a ≤ b)) = days := by
  apply List.mergeSort_of_sorted
  exact hsorted.imp fun h => by simpa using Nat.le_of_lt h

/-- C4: the display decoder maps `Daily` (and an absent rule) to
"Daily"; `Weekly` with all 7 days to "Every day" and otherwise to
"Weekly: " plus the 3-letter abbreviations in ascending day order;
`Monthly` to "Monthly on day(s): " plus the ascending day numbers with
the plural iff more than one day; `Interval n` to "Every n day(s)" with
the "s" iff `n ≠ 1`; `Custom p` to "Custom: p"; and an unrecognized
shape to "Unknown".  Day sets are taken in their canonical sorted,
duplicate-free form with days in `1..7`, and intervals are at least 1,
per the `RecurrenceRule` data model. -/
theorem getFrequencyDisplay_spec :
    (getFrequencyDisplay none = "Daily") ∧
    (getFrequencyDisplay (some FrequencyObj.Daily) = "Daily") ∧
    (∀ days : List Nat, days.Pairwise (· < ·) →
      (∀ d ∈ days, d ∈ Finset.Icc 1 7) →
      (((∀ d ∈ Finset.Icc (1 : Nat) 7, d ∈ days) →
          getFrequencyDisplay (some (FrequencyObj.Weekly days)) = "Every day") ∧
        ((∃ d ∈ Finset.Icc (1 : Nat) 7, d ∉ days) →
          getFrequencyDisplay (some (FrequencyObj.Weekly days)) =
            "Weekly: " ++ String.intercalate ", "
              ((days.mergeSort (fun a b => decide (a ≤ b))).map dayAbbrev)))) ∧
    (∀ days : List Nat, days.Pairwise (· < ·) →
      getFrequencyDisplay (some (FrequencyObj.Monthly days)) =
        "Monthly on day" ++ (if 1 < days.length then "s" else "") ++ ": " ++
          String.intercalate ", "
            ((days.mergeSort (fun a b => decide (a ≤ b))).map toString)) ∧
    (∀ n : Nat, 1 ≤ n →
      getFrequencyDisplay (some (FrequencyObj.Interval n)) =
        "Every " ++ toString n ++ " day" ++ (if n ≠ 1 then "s" else "")) ∧
    (∀ pattern, getFrequencyDisplay (some (FrequencyObj.Custom pattern)) =
        "Custom: " ++ pattern) ∧
    (getFrequencyDisplay (some FrequencyObj.UnknownShape) = "Unknown") := by
  refine ⟨rfl, rfl, ?_, ?_, ?_, fun _ => rfl, rfl⟩
  · intro days hsorted hrange
    constructor
    · intro hall
      have hlen : days.length = 7 :=
        (weekly_allDays_iff_length hsorted hrange).mpr hall
      simp [getFrequencyDisplay, hlen]
    · intro hmissing
      have hlen : days.length ≠ 7 := by
        intro hlen
        obtain ⟨d, hd, hnotin⟩ := hmissing
        exact hnotin ((weekly_allDays_iff_length hsorted hrange).mp hlen d hd)
      rw [mergeSort_of_chain hsorted]
      simp [getFrequencyDisplay, hlen]
  · intro days hsorted
    rw [mergeSort_of_chain hsorted]
    simp [getFrequencyDisplay]
  · intro n hn
    by_cases h1 : n = 1
    · subst h1
      rfl
    · have hgt : 1 < n := by omega
      have hz : ¬ n = 0 := by omega
      simp [getFrequencyDisplay, hz, hgt, h1]

/-- C4 witness: concrete evaluations through the theorem. -/
theorem getFrequencyDisplay_spec_witness :
    getFrequencyDisplay (some (FrequencyObj.Weekly [1, 3])) = "Weekly: Mon, Wed" ∧
    getFrequencyDisplay (some (FrequencyObj.Weekly [1, 2, 3, 4, 5, 6, 7])) =
      "Every day" ∧
    getFrequencyDisplay (some (FrequencyObj.Monthly [1, 15])) =
      "Monthly on days: 1, 15" ∧
    getFrequencyDisplay (some (FrequencyObj.Interval 3)) = "Every 3 days" := by
  have h := getFrequencyDisplay_spec
  refine ⟨?_, ?_, ?_, ?_⟩
  · rw [(h.2.2.1 [1, 3] (by decide) (by decide)).2 (by decide),
      mergeSort_of_chain (show ([1, 3] : List Nat).Pairwise (· < ·) by decide)]
    rfl
  · rw [(h.2.2.1 [1, 2, 3, 4, 5, 6, 7] (by decide) (by decide)).1 (by decide)]
  · rw [h.2.2.2.1 [1, 15] (by decide),
      mergeSort_of_chain (show ([1, 15] : List Nat).Pairwise (· < ·) by decide)]
    rfl
  · rw [h.2.2.2.2.1 3 (by decide)]
    rfl


/-! ## Recurrence encoder (C5) -/

/-- C5: the encoder is total and returns exactly one variant per
discriminator: `weekly` with an empty day-set yields the weekday default
`[1,2,3,4,5]` and a non-empty day-set passes through unchanged;
`interval` with a zero (missing) value coerces to 1 and otherwise passes
the value through; an unknown discriminator falls back to `Daily`. -/
theorem getFrequencyData_spec :
    (∀ (days : List Nat) (i : Nat) (p : String), days ≠ [] →
      getFrequencyData "weekly" days i p = FrequencyObj.Weekly days) ∧
    (∀ (i : Nat) (p : String),
      getFrequencyData "weekly" [] i p = FrequencyObj.Weekly [1, 2, 3, 4, 5]) ∧
    (∀ (days : List Nat) (p : String),
      getFrequencyData "interval" days 0 p = FrequencyObj.Interval 1) ∧
    (∀ (days : List Nat) (i : Nat) (p : String), 1 ≤ i →
      getFrequencyData "interval" days i p = FrequencyObj.Interval i) ∧
    (∀ (t : String) (days : List Nat) (i : Nat) (p : String),
      t ∉ (["daily", "weekly", "monthly", "interval", "custom"] : List String) →
      getFrequencyData t days i p = FrequencyObj.Daily) := by
  refine ⟨?_, fun _ _ => rfl, fun _ _ => rfl, ?_, ?_⟩
  · intro days i p hne
    cases days with
    | nil => exact absurd rfl hne
    | cons d rest => simp [getFrequencyData]
  · intro days i p hi
    have hz : (i == 0) = false := by
      simp
      omega
    simp [getFrequencyData, hz]
  · intro t days i p hmem
    simp only [List.mem_cons, List.not_mem_nil, or_false, not_or] at hmem
    obtain ⟨h1, h2, h3, h4, h5⟩ := hmem
    simp [getFrequencyData, h1, h2, h3, h4, h5]

/-- C5 witness: concrete evaluations through the theorem. -/
theorem getFrequencyData_spec_witness :
    getFrequencyData "weekly" [6, 7] 1 "" = FrequencyObj.Weekly [6, 7] ∧
    getFrequencyData "weekly" [] 1 "" = FrequencyObj.Weekly [1, 2, 3, 4, 5] ∧
    getFrequencyData "interval" [] 0 "" = FrequencyObj.Interval 1 ∧
    getFrequencyData "interval" [] 3 "" = FrequencyObj.Interval 3 ∧
    getFrequencyData "bogus" [1] 2 "x" = FrequencyObj.Daily := by
  have h := getFrequencyData_spec
  exact ⟨h.1 [6, 7] 1 "" (by decide), h.2.1 1 "", h.2.2.1 [] "",
    h.2.2.2.1 [] 3 "" (by decide), h.2.2.2.2 "bogus" [1] 2 "x" (by decide)⟩

/-! ## Contrast text color (C7) -/

/-- C7: inputs without a leading `#` or with a length other than 4 or 7
map to "inherit"; a `#xyz` input with hex digits of values `v1 v2 v3`
doubles each digit (value `17*v`) and compares the YIQ weighting against
128 (scaled by 1000); a `#rrggbb` input uses the two-digit channel
values; the four concrete examples of the specification evaluate as
stated. -/
theorem getContrastTextColor_spec :
    (∀ s : String, ¬ jsStartsWith s "#" → getContrastTextColor s = "inherit") ∧
    (∀ s : String, s.length ≠ 4 → s.length ≠ 7 →
      getContrastTextColor s = "inherit") ∧
    (∀ (s : String) (h1 c1 c2 c3 : Char) (v1 v2 v3 : Nat),
      s.toList = [h1, c1, c2, c3] → jsStartsWith s "#" →
      hexVal c1 = some v1 → hexVal c2 = some v2 → hexVal c3 = some v3 →
      getContrastTextColor s =
        if 128000 ≤ 17 * v1 * 299 + 17 * v2 * 587 + 17 * v3 * 114
        then "#000000" else "#ffffff") ∧
    (∀ (s : String) (h1 c1 c2 c3 c4 c5 c6 : Char) (v1 v2 v3 v4 v5 v6 : Nat),
      s.toList = [h1, c1, c2, c3, c4, c5, c6] → jsStartsWith s "#" →
      hexVal c1 = some v1 → hexVal c2 = some v2 → hexVal c3 = some v3 →
      hexVal c4 = some v4 → hexVal c5 = some v5 → hexVal c6 = some v6 →
      getContrastTextColor s =
        if 128000 ≤ (16 * v1 + v2) * 299 + (16 * v3 + v4) * 587 +
            (16 * v5 + v6) * 114
        then "#000000" else "#ffffff") ∧
    (getContrastTextColor "#000000" = "#ffffff") ∧
    (getContrastTextColor "#ffffff" = "#000000") ∧
    (getContrastTextColor "#3b82f6" = "#ffffff") ∧
    (getContrastTextColor "not-a-color" = "inherit") := by
  refine ⟨?_, ?_, ?_, ?_, by decide, by decide, by decide, by decide⟩
  · intro s hs
    simp [getContrastTextColor, hs]
  · intro s hl4 hl7
    by_cases hs : jsStartsWith s "#"
    · have hlen : s.toList.length = s.length := rfl
      match hm : s.toList with
      | [] => simp [getContrastTextColor, hs, show s.data = [] from hm]
      | [a] => simp [getContrastTextColor, hs, show s.data = [a] from hm]
      | [a, b] => simp [getContrastTextColor, hs, show s.data = [a, b] from hm]
      | [a, b, c] =>
          simp [getContrastTextColor, hs, show s.data = [a, b, c] from hm]
      | [a, b, c, d] =>
          rw [hm] at hlen
          exact absurd hlen.symm hl4
      | [a, b, c, d, e] =>
          simp [getContrastTextColor, hs, show s.data = [a, b, c, d, e] from hm]
      | [a, b, c, d, e, f] =>
          simp [getContrastTextColor, hs,
            show s.data = [a, b, c, d, e, f] from hm]
      | [a, b, c, d, e, f, g] =>
          rw [hm] at hlen
          exact absurd hlen.symm hl7
      | a :: b :: c :: d :: e :: f :: g :: h :: rest =>
          simp [getContrastTextColor, hs,
            show s.data = a :: b :: c :: d :: e :: f :: g :: h :: rest from hm]
    · simp [getContrastTextColor, hs]
  · intro s h1 c1 c2 c3 v1 v2 v3 hs hstart hv1 hv2 hv3
    have e1 : 16 * v1 + v1 = 17 * v1 := by ring
    have e2 : 16 * v2 + v2 = 17 * v2 := by ring
    have e3 : 16 * v3 + v3 = 17 * v3 := by ring
    obtain ⟨sdata⟩ := s
    have hdata : sdata = [h1, c1, c2, c3] := hs
    subst hdata
    unfold getContrastTextColor
    rw [if_neg (not_not_intro hstart)]
    simp [parseIntHex2, hv1, hv2, hv3, yiqColor, e1, e2, e3]
  · intro s h1 c1 c2 c3 c4 c5 c6 v1 v2 v3 v4 v5 v6 hs hstart
      hv1 hv2 hv3 hv4 hv5 hv6
    obtain ⟨sdata⟩ := s
    have hdata : sdata = [h1, c1, c2, c3, c4, c5, c6] := hs
    subst hdata
    unfold getContrastTextColor
    rw [if_neg (not_not_intro hstart)]
    simp [parseIntHex2, hv1, hv2, hv3, hv4, hv5, hv6, yiqColor]

/-- C7 witness: the 3-digit and 6-digit formula cases at concrete
inputs, through the theorem. -/
theorem getContrastTextColor_spec_witness :
    getContrastTextColor "#fff" = "#000000" ∧
    getContrastTextColor "#3b82f6" = "#ffffff" ∧
    getContrastTextColor "abc" = "inherit" ∧
    getContrastTextColor "#ab" = "inherit" := by
  have h := getContrastTextColor_spec
  refine ⟨?_, ?_, ?_, ?_⟩
  · rw [h.2.2.1 "#fff" '#' 'f' 'f' 'f' 15 15 15 (by decide) (by decide)
      (by decide) (by decide) (by decide)]
    decide
  · rw [h.2.2.2.1 "#3b82f6" '#' '3' 'b' '8' '2' 'f' '6' 3 11 8 2 15 6
      (by decide) (by decide) (by decide) (by decide) (by decide) (by decide)
      (by decide) (by decide)]
    decide
  · exact h.1 "abc" (by decide)
  · exact h.2.1 "#ab" (by decide) (by decide)

/-! ## Note ordering (C6, C8) -/

/-- The comparator relation is total. -/
theorem noteLE_total : ∀ a b : Note, noteLE a b || noteLE b a := by
  intro a b
  unfold noteLE
  cases ha : a.is_pinned <;> cases hb : b.is_pinned <;> simp <;> omega

/-- The comparator relation is transitive. -/
theorem noteLE_trans : ∀ a b c : Note, noteLE a b → noteLE b c → noteLE a c := by
  intro a b c
  unfold noteLE
  cases a.is_pinned <;> cases b.is_pinned <;> cases c.is_pinned <;>
    simp <;> omega

/-- Three unpinned notes with timestamps 1 < 2 < 3. -/
def noteT1 : Note := ⟨1, "n1", "", false, 1, [], []⟩

/-- Second sample note. -/
def noteT2 : Note := ⟨2, "n2", "", false, 2, [], []⟩

/-- Third sample note. -/
def noteT3 : Note := ⟨3, "n3", "", false, 3, [], []⟩

/-- The `noteT1` sample after pinning. -/
def noteT1P : Note := ⟨1, "n1", "", true, 1, [], []⟩

/-- C6: `sortNotes` permutes its input; the output is pairwise ordered
with every pinned note before every unpinned one and, within equal pin
status, by `updatedAt` descending; notes that tie on both keys keep
their relative input order (stability); and the two scenario examples
(t1 < t2 < t3 unpinned gives `[t3,t2,t1]`; pinning the t1 note gives
`[t1,t3,t2]`) hold. -/
theorem sortNotes_spec :
    (∀ l : List Note, (sortNotes l).Perm l) ∧
    (∀ l : List Note, (sortNotes l).Pairwise (fun a b =>
        (b.is_pinned = true → a.is_pinned = true) ∧
        (a.is_pinned = b.is_pinned → b.updated_at ≤ a.updated_at))) ∧
    (∀ (l : List Note) (x y : Note), x.is_pinned = y.is_pinned →
        x.updated_at = y.updated_at → [x, y].Sublist l →
        [x, y].Sublist (sortNotes l)) ∧
    (sortNotes [noteT1, noteT2, noteT3] = [noteT3, noteT2, noteT1]) ∧
    (sortNotes [noteT1P, noteT2, noteT3] = [noteT1P, noteT3, noteT2]) := by
  have hsorted : ∀ l : List Note, (sortNotes l).Pairwise (noteLE · ·) :=
    fun l => List.sorted_mergeSort noteLE_trans noteLE_total l
  refine ⟨fun l => List.mergeSort_perm l noteLE, ?_, ?_, ?_, ?_⟩
  · intro l
    refine (hsorted l).imp ?_
    intro a b h
    unfold noteLE at h
    cases ha : a.is_pinned <;> cases hb : b.is_pinned <;>
      simp [ha, hb] at h ⊢ <;> omega
  · intro l x y hpin htime hsub
    apply List.pair_sublist_mergeSort noteLE_trans noteLE_total _ hsub
    unfold noteLE
    rw [hpin, htime]
    cases y.is_pinned <;> simp
  · apply @List.Perm.eq_of_sorted Note (fun a b => noteLE a b = true)
    · intro a b ha hb
      rw [sortNotes, List.mem_mergeSort] at ha
      simp only [List.mem_cons, List.not_mem_nil, or_false] at ha hb
      rcases ha with rfl | rfl | rfl <;> rcases hb with rfl | rfl | rfl <;>
        decide
    · exact hsorted _
    · decide
    · exact (List.mergeSort_perm _ noteLE).trans (by decide)
  · apply @List.Perm.eq_of_sorted Note (fun a b => noteLE a b = true)
    · intro a b ha hb
      rw [sortNotes, List.mem_mergeSort] at ha
      simp only [List.mem_cons, List.not_mem_nil, or_false] at ha hb
      rcases ha with rfl | rfl | rfl <;> rcases hb with rfl | rfl | rfl <;>
        decide
    · exact hsorted _
    · decide
    · exact (List.mergeSort_perm _ noteLE).trans (by decide)

/-- C6 witness: the stability clause applied to two tying notes around a
distinct middle one. -/
theorem sortNotes_spec_witness :
    [⟨7, "a", "", false, 5, [], []⟩, ⟨8, "b", "", false, 5, [], []⟩].Sublist
      (sortNotes [⟨7, "a", "", false, 5, [], []⟩, noteT2,
        ⟨8, "b", "", false, 5, [], []⟩]) :=
  sortNotes_spec.2.2.1 _ _ _ rfl rfl (by decide)

/-- C8: sorting is idempotent: sorting an already sorted list leaves it
unchanged. -/
theorem sortNotes_idempotent :
    ∀ l : List Note, sortNotes (sortNotes l) = sortNotes l := fun l =>
  List.mergeSort_of_sorted (List.sorted_mergeSort noteLE_trans noteLE_total l)

/-! ## Search failure fallback (C2) -/

/-- A sample note whose title contains "abc". -/
def abcNote : Note := ⟨1, "abc note", "text", false, 0, [], []⟩

/-- The empty initial component state. -/
def emptyNotesState : NotesState := ⟨[], [], [], false⟩

/-- C2 (code bug): in `NotesManagement.svelte` the failure fallback of
`performSearch` filters the `allNotes` state, but no code path of that
component ever assigns `allNotes`, so after loading a collection that
contains a note matching "abc", a failing search for "abc" yields the
empty list — not the substring-filtered last loaded collection that the
specification describes.  The sibling implementation in
`NoteEditor.svelte`, whose `loadNotes` does populate `allNotes`,
produces exactly the described filtered collection on the same
scenario. -/
theorem performSearch_failure_fallback_bug :
    (nmLoadNotes emptyNotesState [abcNote]).notes = [abcNote] ∧
    searchFallbackFilter "abc" (nmLoadNotes emptyNotesState [abcNote]).notes =
      [abcNote] ∧
    (nmPerformSearch id "abc" (Except.error "backend failure")
        (nmLoadNotes emptyNotesState [abcNote])).notes = [] ∧
    (nePerformSearch "abc" (Except.error "backend failure")
        (neLoadNotes emptyNotesState [abcNote])).notes = [abcNote] := by
  refine ⟨by decide, by decide, by decide, by decide⟩

/-! ## Selection reconciliation (C3) -/

/-- Helper: with duplicate-free ids, looking a member's id up by
`find?` returns exactly that member. -/
theorem find_note_by_id {notes : List Note} {n : Note}
    (hids : (notes.map Note.id).Nodup) (hmem : n ∈ notes) (i : Int)
    (hid : n.id = i) : notes.find? (fun m => m.id == i) = some n := by
  induction notes with
  | nil => cases hmem
  | cons m rest ih =>
      by_cases hm : (m.id == i) = true
      · have hfind : List.find? (fun m => m.id == i) (m :: rest) = some m := by
          apply List.find?_cons_of_pos
          exact hm
        rw [hfind]
        have hmi : m.id = i := by simpa using hm
        have : m = n := by
          apply List.inj_on_of_nodup_map hids (List.mem_cons_self m rest) hmem
          exact hmi.trans hid.symm
        exact congrArg some this
      · have hfind : List.find? (fun m => m.id == i) (m :: rest) =
            List.find? (fun m => m.id == i) rest := by
          apply List.find?_cons_of_neg
          simpa using hm
        rw [hfind]
        have hne : n ≠ m := by
          intro he
          subst he
          exact hm (by simpa using hid)
        have hmem' : n ∈ rest := by
          rcases List.mem_cons.mp hmem with he | hr
          · exact absurd he hne
          · exact hr
        exact ih (List.Nodup.of_cons hids) hmem'

/-- C3: after a reload, a previously selected note whose id is still
present is replaced by the fresh object from the reloaded collection; a
selected id that is absent clears the selection; and after a create, a
reloaded note carrying the id returned by the create command becomes the
selection. -/
theorem selection_reconciliation :
    (∀ (notes : List Note) (sn n : Note),
      (notes.map Note.id).Nodup → n ∈ notes → n.id = sn.id →
      reconcileSelection notes (some sn) = some n) ∧
    (∀ (notes : List Note) (sn : Note),
      (∀ n ∈ notes, n.id ≠ sn.id) →
      reconcileSelection notes (some sn) = none) ∧
    (∀ (notes : List Note) (newNoteId : Int) (nn : Note) (sel : Option Note),
      (notes.map Note.id).Nodup → nn ∈ notes → nn.id = newNoteId →
      selectNewNote notes newNoteId sel = some nn) := by
  refine ⟨?_, ?_, ?_⟩
  · intro notes sn n hids hmem hid
    simp only [reconcileSelection]
    rw [find_note_by_id hids hmem sn.id hid]
  · intro notes sn hne
    simp only [reconcileSelection]
    have hfind : notes.find? (fun m => m.id == sn.id) = none := by
      rw [List.find?_eq_none]
      intro n hn
      simpa using hne n hn
    rw [hfind]
  · intro notes newNoteId nn sel hids hmem hid
    simp only [selectNewNote]
    rw [find_note_by_id hids hmem newNoteId hid]

/-- C3 witness: the three clauses at concrete collections. -/
theorem selection_reconciliation_witness :
    reconcileSelection [noteT1, noteT2] (some noteT2) = some noteT2 ∧
    reconcileSelection [noteT1] (some noteT2) = none ∧
    selectNewNote [noteT1, noteT3] 3 none = some noteT3 := by
  have h := selection_reconciliation
  exact ⟨h.1 [noteT1, noteT2] noteT2 noteT2 (by decide) (by decide) rfl,
    h.2.1 [noteT1] noteT2 (by decide),
    h.2.2 [noteT1, noteT3] 3 noteT3 none (by decide) (by decide) rfl⟩

/-! ## Folder hierarchy: basic lemmas -/

/-- Unfolding: zero fuel yields `none`. -/
theorem subtreeFuel_zero (folders : List Folder) (f : Folder) (lvl : Nat) :
    subtreeFuel folders 0 f lvl = none := rfl

/-- Unfolding: positive fuel processes the node and descends with one
unit less. -/
theorem subtreeFuel_succ (folders : List Folder) (fuel : Nat) (f : Folder)
    (lvl : Nat) :
    subtreeFuel folders (fuel + 1) f lvl =
      match subforestWith (subtreeFuel folders fuel)
          (folders.filter fun c => c.parent_id == some f.id) (lvl + 1) with
      | none => none
      | some rest => some (hierEntry folders f lvl :: rest) := rfl

/-- A failing sibling traversal has a failing sibling. -/
theorem subforestWith_none {α : Type} {tr : Folder → Nat → Option (List α)} :
    ∀ {cs : List Folder} {lvl : Nat}, subforestWith tr cs lvl = none →
      ∃ c ∈ cs, tr c lvl = none := by
  intro cs
  induction cs with
  | nil => intro lvl h; cases h
  | cons c cs ih =>
      intro lvl h
      rw [subforestWith] at h
      cases h1 : tr c lvl with
      | none => exact ⟨c, List.mem_cons_self c cs, h1⟩
      | some l1 =>
          rw [h1] at h
          cases h2 : subforestWith tr cs lvl with
          | none =>
              obtain ⟨c2, hc2, hn⟩ := ih h2
              exact ⟨c2, List.mem_cons_of_mem c hc2, hn⟩
          | some l2 => rw [h2] at h; cases h

/-- Every sibling of a successful sibling traversal succeeds, and its
entries land in the combined output. -/
theorem subforestWith_some_mem {α : Type} {tr : Folder → Nat → Option (List α)} :
    ∀ {cs : List Folder} {lvl : Nat} {l : List α},
      subforestWith tr cs lvl = some l → ∀ c ∈ cs,
      ∃ lc, tr c lvl = some lc ∧ ∀ e ∈ lc, e ∈ l := by
  intro cs
  induction cs with
  | nil => intro lvl l _ c hc; cases hc
  | cons c0 cs ih =>
      intro lvl l h c hc
      rw [subforestWith] at h
      cases h1 : tr c0 lvl with
      | none => rw [h1] at h; cases h
      | some l1 =>
          rw [h1] at h
          cases h2 : subforestWith tr cs lvl with
          | none => rw [h2] at h; cases h
          | some l2 =>
              rw [h2] at h
              cases h
              rcases List.mem_cons.mp hc with he | hr
              · subst he
                exact ⟨l1, h1, fun e he2 =>
                  List.mem_append.mpr (Or.inl he2)⟩
              · obtain ⟨lc, hlc, hsub⟩ := ih h2 c hr
                exact ⟨lc, hlc, fun e he2 =>
                  List.mem_append.mpr (Or.inr (hsub e he2))⟩

/-- Any per-node property of a traversal lifts through the sibling
loop: every output element comes from some sibling. -/
theorem subforestWith_forall {α : Type} {tr : Folder → Nat → Option (List α)}
    {P : Folder → α → Prop}
    (hP : ∀ c lvl l, tr c lvl = some l → ∀ e ∈ l, P c e) :
    ∀ {cs : List Folder} {lvl : Nat} {l : List α},
      subforestWith tr cs lvl = some l → ∀ e ∈ l, ∃ c ∈ cs, P c e := by
  intro cs
  induction cs with
  | nil =>
      intro lvl l h e he
      rw [subforestWith] at h
      cases h
      cases he
  | cons c0 cs ih =>
      intro lvl l h e he
      rw [subforestWith] at h
      cases h1 : tr c0 lvl with
      | none => rw [h1] at h; cases h
      | some l1 =>
          rw [h1] at h
          cases h2 : subforestWith tr cs lvl with
          | none => rw [h2] at h; cases h
          | some l2 =>
              rw [h2] at h
              cases h
              rcases List.mem_append.mp he with h1m | h2m
              · exact ⟨c0, List.mem_cons_self c0 cs, hP c0 lvl l1 h1 e h1m⟩
              · obtain ⟨c, hc, hPc⟩ := ih h2 e h2m
                exact ⟨c, List.mem_cons_of_mem c0 hc, hPc⟩

/-- The sibling loop commutes with mapping each node traversal. -/
theorem subforestWith_map {α β : Type} (φ : α → β)
    (tr1 : Folder → Nat → Option (List β))
    (tr2 : Folder → Nat → Option (List α))
    (h : ∀ c lvl, tr1 c lvl = (tr2 c lvl).map (List.map φ)) :
    ∀ (cs : List Folder) (lvl : Nat),
      subforestWith tr1 cs lvl =
        (subforestWith tr2 cs lvl).map (List.map φ) := by
  intro cs
  induction cs with
  | nil => intro lvl; rfl
  | cons c cs ih =>
      intro lvl
      rw [subforestWith, subforestWith, h c lvl, ih lvl]
      cases tr2 c lvl <;> cases subforestWith tr2 cs lvl <;>
        simp [List.map_append]

/-! ## Folder hierarchy refinement (C1) -/

/-- The code traversal equals the spec traversal decorated entrywise. -/
theorem subtreeFuel_eq_spec (folders : List Folder) :
    ∀ (fuel : Nat) (f : Folder) (lvl : Nat),
      subtreeFuel folders fuel f lvl =
        (specTreeFuel folders fuel f lvl).map
          (List.map (specEntry folders)) := by
  intro fuel
  induction fuel with
  | zero => intro f lvl; rfl
  | succ fuel ih =>
      intro f lvl
      have hforest := subforestWith_map (specEntry folders)
        (subtreeFuel folders fuel) (specTreeFuel folders fuel)
        (fun c l => ih c l)
        (folders.filter fun c => c.parent_id == some f.id) (lvl + 1)
      show (match subforestWith (subtreeFuel folders fuel)
          (folders.filter fun c => c.parent_id == some f.id) (lvl + 1) with
        | none => none
        | some rest => some (hierEntry folders f lvl :: rest)) = _
      rw [hforest]
      show _ = (match subforestWith (specTreeFuel folders fuel)
          (folders.filter fun c => c.parent_id == some f.id) (lvl + 1) with
        | none => none
        | some rest => some ((f, lvl) :: rest)).map
          (List.map (specEntry folders))
      cases subforestWith (specTreeFuel folders fuel)
          (folders.filter fun c => c.parent_id == some f.id) (lvl + 1) with
      | none => rfl
      | some ps => rfl

/-- The three folders of the specification example. -/
def sampleFolders : List Folder :=
  [⟨1, "Folder1", none⟩, ⟨2, "Folder2", some 1⟩, ⟨3, "Folder3", none⟩]

/-- C1: the hierarchy builder refines the specification traversal — the
synthetic "All Notes" head, every root folder in input order each
followed by its descendants in depth-first pre-order with `level` =
depth, and every entry decorated with `hasChildren` true iff some input
folder names it as parent; the concrete three-folder example of the
specification evaluates exactly as stated. -/
theorem buildFolderHierarchy_spec :
    (∀ (folders : List Folder) (fuel : Nat),
      buildFolderHierarchy folders fuel = specHierarchy folders fuel) ∧
    (∀ (folders : List Folder) (i : Int),
      hasChildrenSpec folders i = true ↔ ∃ f ∈ folders, f.parent_id = some i) ∧
    (buildFolderHierarchy sampleFolders 4 = some
      [allNotesEntry,
        ⟨some 1, "Folder1", 1, true, none⟩,
        ⟨some 2, "Folder2", 2, false, some 1⟩,
        ⟨some 3, "Folder3", 1, false, none⟩]) := by
  refine ⟨?_, ?_, by decide⟩
  · intro folders fuel
    rw [buildFolderHierarchy, specHierarchy,
      subforestWith_map (specEntry folders) (subtreeFuel folders fuel)
        (specTreeFuel folders fuel) (fun c l => subtreeFuel_eq_spec folders fuel c l)
        (folders.filter fun f => f.parent_id == none) 1]
    cases subforestWith (specTreeFuel folders fuel)
        (folders.filter fun f => f.parent_id == none) 1 with
    | none => rfl
    | some ps => rfl
  · intro folders i
    simp [hasChildrenSpec]

/-- C1 witness: the refinement and the `hasChildren` characterization at
a concrete folder list. -/
theorem buildFolderHierarchy_spec_witness :
    buildFolderHierarchy sampleFolders 2 = specHierarchy sampleFolders 2 ∧
    (hasChildrenSpec sampleFolders 1 = true ↔
      ∃ f ∈ sampleFolders, f.parent_id = some 1) :=
  ⟨buildFolderHierarchy_spec.1 sampleFolders 2,
    buildFolderHierarchy_spec.2.1 sampleFolders 1⟩

/-! ## Folder hierarchy termination (C9) -/

/-- Every chain element is the id of an input folder. -/
theorem isChain_mem {folders : List Folder} :
    ∀ {cs : List Int} {p : Int}, isChain folders p cs →
      ∀ c ∈ cs, c ∈ folders.map Folder.id := by
  intro cs
  induction cs with
  | nil => intro p _ c hc; cases hc
  | cons c0 cs ih =>
      intro p h c hc
      obtain ⟨⟨g, hg, hgid, _⟩, hrest⟩ := h
      rcases List.mem_cons.mp hc with he | hr
      · subst he
        exact List.mem_map.mpr ⟨g, hg, hgid⟩
      · exact ih hrest c hr

/-- A chain witnesses transitive reachability to each of its
elements. -/
theorem isChain_transGen {folders : List Folder} :
    ∀ {cs : List Int} {p : Int}, isChain folders p cs →
      ∀ c ∈ cs, Relation.TransGen (pstep folders) p c := by
  intro cs
  induction cs with
  | nil => intro p _ c hc; cases hc
  | cons c0 cs ih =>
      intro p h c hc
      obtain ⟨hstep, hrest⟩ := h
      rcases List.mem_cons.mp hc with he | hr
      · subst he
        exact Relation.TransGen.single hstep
      · exact Relation.TransGen.head hstep (ih hrest c hr)

/-- A chain restricts to a chain from any of its elements. -/
theorem isChain_middle {folders : List Folder} :
    ∀ {l1 : List Int} {p x : Int} {l2 : List Int},
      isChain folders p (l1 ++ x :: l2) → isChain folders x l2 := by
  intro l1
  induction l1 with
  | nil => intro p x l2 h; exact h.2
  | cons a l1 ih =>
      intro p x l2 h
      exact ih h.2

/-- A list with a repetition splits at its first copy. -/
theorem not_nodup_decomp {cs : List Int} (h : ¬ cs.Nodup) :
    ∃ (l1 : List Int) (x : Int) (l2 : List Int),
      cs = l1 ++ x :: l2 ∧ x ∈ l2 := by
  induction cs with
  | nil => exact absurd List.nodup_nil h
  | cons a t ih =>
      by_cases ha : a ∈ t
      · exact ⟨[], a, t, rfl, ha⟩
      · have : ¬ t.Nodup := by
          intro hnd
          exact h (List.nodup_cons.mpr ⟨ha, hnd⟩)
        obtain ⟨l1, x, l2, he, hx⟩ := ih this
        exact ⟨a :: l1, x, l2, by rw [he]; rfl, hx⟩

/-- Pigeonhole: more elements than available ids forces a repetition. -/
theorem too_long_not_nodup {cs ids : List Int}
    (hsub : ∀ c ∈ cs, c ∈ ids) (hlen : ids.length < cs.length) :
    ¬ cs.Nodup := by
  intro hnd
  have h1 : cs.toFinset.card = cs.length := List.toFinset_card_of_nodup hnd
  have h2 : cs.toFinset ⊆ ids.toFinset := by
    intro c hc
    exact List.mem_toFinset.mpr (hsub c (List.mem_toFinset.mp hc))
  have h3 : cs.toFinset.card ≤ ids.toFinset.card := Finset.card_le_card h2
  have h4 : ids.toFinset.card ≤ ids.length := List.toFinset_card_le ids
  omega

/-- Running out of fuel exhibits a descending chain as long as the
fuel. -/
theorem subtreeFuel_none_chain {folders : List Folder} :
    ∀ {fuel : Nat} {f : Folder} {lvl : Nat},
      subtreeFuel folders fuel f lvl = none →
      ∃ cs : List Int, isChain folders f.id cs ∧ cs.length = fuel := by
  intro fuel
  induction fuel with
  | zero => intro f lvl _; exact ⟨[], trivial, rfl⟩
  | succ fuel ih =>
      intro f lvl h
      rw [subtreeFuel_succ] at h
      cases hsf : subforestWith (subtreeFuel folders fuel)
          (folders.filter fun c => c.parent_id == some f.id) (lvl + 1) with
      | some rest => rw [hsf] at h; cases h
      | none =>
          obtain ⟨c, hc, hnone⟩ := subforestWith_none hsf
          obtain ⟨hcf, hcp⟩ := List.mem_filter.mp hc
          have hstep : pstep folders f.id c.id :=
            ⟨c, hcf, rfl, by simpa using hcp⟩
          obtain ⟨cs, hchain, hlen⟩ := ih hnone
          exact ⟨c.id :: cs, ⟨hstep, hchain⟩, by simp [hlen]⟩

/-- A chain longer than the folder list closes a cycle. -/
theorem chain_cycle {folders : List Folder} {p : Int} {cs : List Int}
    (hacyc : Acyclic folders) (hchain : isChain folders p cs)
    (hlen : cs.length = folders.length + 1) : False := by
  have hmem := isChain_mem hchain
  have hnotnd : ¬ cs.Nodup := by
    apply too_long_not_nodup hmem
    rw [List.length_map]
    omega
  obtain ⟨l1, x, l2, he, hx⟩ := not_nodup_decomp hnotnd
  subst he
  have hx2 : isChain folders x l2 := isChain_middle hchain
  exact hacyc x (isChain_transGen hx2 x hx)

/-- C9: on an acyclic parent-pointer relation the recursive hierarchy
construction terminates — with fuel one more than the number of folders
(an upper bound for any descending chain) the builder returns a
result. -/
theorem buildFolderHierarchy_terminating (folders : List Folder)
    (hacyc : Acyclic folders) :
    (buildFolderHierarchy folders (folders.length + 1)).isSome = true := by
  rw [buildFolderHierarchy]
  cases hsf : subforestWith (subtreeFuel folders (folders.length + 1))
      (folders.filter fun f => f.parent_id == none) 1 with
  | some l => rfl
  | none =>
      exfalso
      obtain ⟨r, _, hnone⟩ := subforestWith_none hsf
      obtain ⟨cs, hchain, hlen⟩ := subtreeFuel_none_chain hnone
      exact chain_cycle hacyc hchain hlen

/-- Sufficient criterion for acyclicity: a rank strictly decreasing
along every parent-pointer edge. -/
theorem acyclic_of_rank (folders : List Folder) (rank : Int → Nat)
    (h : ∀ p c, pstep folders p c → rank c < rank p) : Acyclic folders := by
  intro i hti
  have hdec : ∀ a b, Relation.TransGen (pstep folders) a b → rank b < rank a := by
    intro a b htg
    induction htg with
    | single h1 => exact h _ _ h1
    | tail _ h2 ih => exact Nat.lt_trans (h _ _ h2) ih
  exact absurd (hdec i i hti) (lt_irrefl _)

/-- C9 witness: the theorem applied to a concrete two-folder acyclic
list. -/
theorem buildFolderHierarchy_terminating_witness :
    (buildFolderHierarchy [⟨1, "A", none⟩, ⟨2, "B", some 1⟩] 3).isSome =
      true := by
  apply buildFolderHierarchy_terminating
  apply acyclic_of_rank _ (fun i => if i = 1 then 1 else 0)
  rintro p c ⟨g, hg, rfl, hp⟩
  rcases List.mem_cons.mp hg with he | hg2
  · subst he
    cases hp
  · rcases List.mem_cons.mp hg2 with he | hg3
    · subst he
      cases hp
      decide
    · cases hg3

/-! ## Folder hierarchy uniqueness (C10) -/

/-- With duplicate-free ids, a parent edge into a folder's id pins down
that folder's `parent_id` field. -/
theorem lookup_parent {folders : List Folder}
    (hids : (folders.map Folder.id).Nodup) {g : Folder} {p : Int}
    (hg : g ∈ folders) (hstep : pstep folders p g.id) :
    g.parent_id = some p := by
  obtain ⟨g2, hg2, hg2id, hg2p⟩ := hstep
  have : g2 = g := List.inj_on_of_nodup_map hids hg2 hg hg2id
  subst this
  exact hg2p

/-- With unique parents, two ancestors of a common node are comparable
along the parent-pointer relation. -/
theorem refl_chains_linear {folders : List Folder}
    (hids : (folders.map Folder.id).Nodup) :
    ∀ {c j : Int}, Relation.ReflTransGen (pstep folders) c j →
      ∀ {d : Int}, Relation.ReflTransGen (pstep folders) d j →
      Relation.ReflTransGen (pstep folders) c d ∨
        Relation.ReflTransGen (pstep folders) d c := by
  intro c j hcj
  induction hcj with
  | refl =>
      intro d hdc
      exact Or.inr hdc
  | tail hcm hstep ih =>
      rename_i m j2
      intro d hdj
      rcases Relation.ReflTransGen.cases_tail hdj with he | ⟨m2, hdm2, hstep2⟩
      · subst he
        exact Or.inl (Relation.ReflTransGen.tail hcm hstep)
      · have hm : m2 = m := by
          obtain ⟨g, hg, hgid, hgp⟩ := hstep
          have hp2 : g.parent_id = some m2 := by
            apply lookup_parent hids hg
            rw [hgid]
            exact hstep2
          rw [hgp] at hp2
          exact (Option.some.inj hp2).symm
        rw [hm] at hdm2
        exact ih hdm2

/-- Strict descent from one sibling to another closes a cycle. -/
theorem sibling_descent_absurd {folders : List Folder}
    (hids : (folders.map Folder.id).Nodup) (hacyc : Acyclic folders)
    {c c2 : Folder} (hc : c ∈ folders) (hc2 : c2 ∈ folders)
    (hne : c.id ≠ c2.id) (hpar : c.parent_id = c2.parent_id)
    (hdesc : Relation.ReflTransGen (pstep folders) c.id c2.id) : False := by
  rcases Relation.ReflTransGen.cases_tail hdesc with he | ⟨m, hcm, hstep⟩
  · exact hne he.symm
  · have hp2 : c2.parent_id = some m := lookup_parent hids hc2 hstep
    have hp1 : c.parent_id = some m := by rw [hpar, hp2]
    have hstep1 : pstep folders m c.id := ⟨c, hc, rfl, hp1⟩
    exact hacyc m (Relation.TransGen.head' hstep1 hcm)

/-- Two distinct siblings (same `parent_id` field) have disjoint
descendant sets. -/
theorem sibling_disjoint {folders : List Folder}
    (hids : (folders.map Folder.id).Nodup) (hacyc : Acyclic folders)
    {c c2 : Folder} (hc : c ∈ folders) (hc2 : c2 ∈ folders)
    (hne : c.id ≠ c2.id) (hpar : c.parent_id = c2.parent_id) {j : Int}
    (hd1 : Relation.ReflTransGen (pstep folders) c.id j)
    (hd2 : Relation.ReflTransGen (pstep folders) c2.id j) : False := by
  rcases refl_chains_linear hids hd1 hd2 with h | h
  · exact sibling_descent_absurd hids hacyc hc hc2 hne hpar h
  · exact sibling_descent_absurd hids hacyc hc2 hc (Ne.symm hne) hpar.symm h

/-- A successful subtree starts with its own entry. -/
theorem subtreeFuel_some_head {folders : List Folder} {fuel : Nat}
    {f : Folder} {lvl : Nat} {l : List HierarchyEntry}
    (h : subtreeFuel folders fuel f lvl = some l) :
    ∃ rest, l = hierEntry folders f lvl :: rest := by
  cases fuel with
  | zero => cases h
  | succ fuel =>
      rw [subtreeFuel_succ] at h
      cases hsf : subforestWith (subtreeFuel folders fuel)
          (folders.filter fun c => c.parent_id == some f.id) (lvl + 1) with
      | none => rw [hsf] at h; cases h
      | some rest =>
          rw [hsf] at h
          cases h
          exact ⟨rest, rfl⟩

/-- Every entry of a subtree carries the id of an input folder reachable
from the subtree root, and, unless it is the root entry itself, its
folder's parent is also an input folder. -/
theorem subtreeFuel_descend {folders : List Folder} :
    ∀ {fuel : Nat} {f : Folder} {lvl : Nat} {l : List HierarchyEntry},
      f ∈ folders → subtreeFuel folders fuel f lvl = some l →
      ∀ e ∈ l, ∃ g ∈ folders, e.id = some g.id ∧
        Relation.ReflTransGen (pstep folders) f.id g.id ∧
        (g = f ∨ ∃ a ∈ folders, g.parent_id = some a.id) := by
  intro fuel
  induction fuel with
  | zero => intro f lvl l _ h; cases h
  | succ fuel ih =>
      intro f lvl l hf h e he
      rw [subtreeFuel_succ] at h
      cases hsf : subforestWith (subtreeFuel folders fuel)
          (folders.filter fun c => c.parent_id == some f.id) (lvl + 1) with
      | none => rw [hsf] at h; cases h
      | some rest =>
          rw [hsf] at h
          cases h
          rcases List.mem_cons.mp he with he0 | her
          · subst he0
            exact ⟨f, hf, rfl, Relation.ReflTransGen.refl, Or.inl rfl⟩
          · have hfor := subforestWith_forall
              (P := fun c e => c ∈ folders →
                ∃ g ∈ folders, e.id = some g.id ∧
                  Relation.ReflTransGen (pstep folders) c.id g.id ∧
                  (g = c ∨ ∃ a ∈ folders, g.parent_id = some a.id))
              (fun c lvl2 l2 hs e2 he2 hc => ih hc hs e2 he2) hsf e her
            obtain ⟨c, hcmem, hPc⟩ := hfor
            obtain ⟨hcf, hcp⟩ := List.mem_filter.mp hcmem
            have hcpar : c.parent_id = some f.id := by simpa using hcp
            obtain ⟨g, hgf, heid, hD, hdisj⟩ := hPc hcf
            refine ⟨g, hgf, heid, ?_, ?_⟩
            · exact Relation.ReflTransGen.head ⟨c, hcf, rfl, hcpar⟩ hD
            · rcases hdisj with he2 | ⟨a, haf, hpa⟩
              · subst he2
                exact Or.inr ⟨f, hf, hcpar⟩
              · exact Or.inr ⟨a, haf, hpa⟩

/-- Under unique ids and acyclicity, the ids of a subtree listing (and
of any listing of sibling subtrees) are duplicate-free. -/
theorem subtree_ids_nodup {folders : List Folder}
    (hids : (folders.map Folder.id).Nodup) (hacyc : Acyclic folders) :
    ∀ fuel : Nat,
      (∀ f ∈ folders, ∀ (lvl : Nat) (l : List HierarchyEntry),
        subtreeFuel folders fuel f lvl = some l →
        (l.map HierarchyEntry.id).Nodup) ∧
      (∀ (cs : List Folder) (lvl : Nat) (l : List HierarchyEntry),
        (∀ c ∈ cs, c ∈ folders) → (cs.map Folder.id).Nodup →
        (∀ c ∈ cs, ∀ c2 ∈ cs, c.parent_id = c2.parent_id) →
        subforestWith (subtreeFuel folders fuel) cs lvl = some l →
        (l.map HierarchyEntry.id).Nodup) := by
  intro fuel
  induction fuel with
  | zero =>
      constructor
      · intro f _ lvl l h
        rw [subtreeFuel_zero] at h
        exact Option.noConfusion h
      · intro cs lvl l _ _ _ h
        cases cs with
        | nil =>
            cases h
            simp
        | cons c cs2 =>
            have hnone : subforestWith (subtreeFuel folders 0) (c :: cs2) lvl =
                none := by
              rw [subforestWith]
              cases subforestWith (subtreeFuel folders 0) cs2 lvl <;> rfl
            rw [hnone] at h
            exact Option.noConfusion h
  | succ fuel ih =>
      have tn : ∀ f ∈ folders, ∀ (lvl : Nat) (l : List HierarchyEntry),
          subtreeFuel folders (fuel + 1) f lvl = some l →
          (l.map HierarchyEntry.id).Nodup := by
        intro f hf lvl l h
        rw [subtreeFuel_succ] at h
        cases hsf : subforestWith (subtreeFuel folders fuel)
            (folders.filter fun c => c.parent_id == some f.id) (lvl + 1) with
        | none => rw [hsf] at h; exact Option.noConfusion h
        | some rest =>
            rw [hsf] at h
            cases h
            rw [List.map_cons]
            refine List.nodup_cons.mpr ⟨?_, ?_⟩
            · intro hmem
              obtain ⟨e, he, heid⟩ := List.mem_map.mp hmem
              have hfor := subforestWith_forall
                (P := fun c e => c ∈ folders →
                  ∃ g ∈ folders, e.id = some g.id ∧
                    Relation.ReflTransGen (pstep folders) c.id g.id ∧
                    (g = c ∨ ∃ a ∈ folders, g.parent_id = some a.id))
                (fun c lvl2 l2 hs e2 he2 hc =>
                  subtreeFuel_descend hc hs e2 he2) hsf e he
              obtain ⟨c, hcmem, hPc⟩ := hfor
              obtain ⟨hcf, hcp⟩ := List.mem_filter.mp hcmem
              have hcpar : c.parent_id = some f.id := by simpa using hcp
              obtain ⟨g, hgf, hgid, hD, _⟩ := hPc hcf
              have hgidf : g.id = f.id := by
                have : some g.id = some f.id := by
                  rw [← hgid, heid]
                  rfl
                exact Option.some.inj this
              rw [hgidf] at hD
              exact hacyc f.id
                (Relation.TransGen.head' ⟨c, hcf, rfl, hcpar⟩ hD)
            · apply ih.2 (folders.filter fun c => c.parent_id == some f.id)
                (lvl + 1) rest
              · intro c hc
                exact (List.mem_filter.mp hc).1
              · apply List.Nodup.sublist
                  (List.Sublist.map Folder.id (List.filter_sublist folders))
                  hids
              · intro c hc c2 hc2
                have h1 : c.parent_id = some f.id := by
                  simpa using (List.mem_filter.mp hc).2
                have h2 : c2.parent_id = some f.id := by
                  simpa using (List.mem_filter.mp hc2).2
                rw [h1, h2]
              · exact hsf
      refine ⟨tn, ?_⟩
      intro cs
      induction cs with
      | nil =>
          intro lvl l _ _ _ h
          cases h
          simp
      | cons c cs2 ihcs =>
          intro lvl l hmem hnd hpar h
          rw [subforestWith] at h
          cases h1 : subtreeFuel folders (fuel + 1) c lvl with
          | none => rw [h1] at h; exact Option.noConfusion h
          | some l1 =>
              rw [h1] at h
              cases h2 : subforestWith (subtreeFuel folders (fuel + 1))
                  cs2 lvl with
              | none => rw [h2] at h; exact Option.noConfusion h
              | some l2 =>
                  rw [h2] at h
                  cases h
                  rw [List.map_append]
                  apply List.Nodup.append
                  · exact tn c (hmem c (List.mem_cons_self c cs2)) lvl l1 h1
                  · apply ihcs
                    · intro c2 hc2
                      exact hmem c2 (List.mem_cons_of_mem c hc2)
                    · exact List.Nodup.of_cons hnd
                    · intro c2 hc2 c3 hc3
                      exact hpar c2 (List.mem_cons_of_mem c hc2) c3
                        (List.mem_cons_of_mem c hc3)
                    · exact h2
                  · intro x hx1 hx2
                    obtain ⟨e1, he1, he1id⟩ := List.mem_map.mp hx1
                    obtain ⟨e2, he2, he2id⟩ := List.mem_map.mp hx2
                    obtain ⟨g1, hg1f, hg1id, hD1, _⟩ :=
                      subtreeFuel_descend (hmem c (List.mem_cons_self c cs2))
                        h1 e1 he1
                    have hfor := subforestWith_forall
                      (P := fun c e => c ∈ folders →
                        ∃ g ∈ folders, e.id = some g.id ∧
                          Relation.ReflTransGen (pstep folders) c.id g.id ∧
                          (g = c ∨ ∃ a ∈ folders, g.parent_id = some a.id))
                      (fun c lvl2 l2 hs e3 he3 hc =>
                        subtreeFuel_descend hc hs e3 he3) h2 e2 he2
                    obtain ⟨c2, hc2mem, hPc2⟩ := hfor
                    obtain ⟨g2, hg2f, hg2id, hD2, _⟩ :=
                      hPc2 (hmem c2 (List.mem_cons_of_mem c hc2mem))
                    have hg12 : g1.id = g2.id := by
                      have : some g1.id = some g2.id := by
                        rw [← hg1id, ← hg2id, he1id, he2id]
                      exact Option.some.inj this
                    have hne : c.id ≠ c2.id := by
                      intro he
                      have : c.id ∈ cs2.map Folder.id :=
                        he ▸ List.mem_map.mpr ⟨c2, hc2mem, rfl⟩
                      exact (List.nodup_cons.mp hnd).1 this
                    rw [hg12] at hD1
                    exact sibling_disjoint hids hacyc
                      (hmem c (List.mem_cons_self c cs2))
                      (hmem c2 (List.mem_cons_of_mem c hc2mem)) hne
                      (hpar c (List.mem_cons_self c cs2) c2
                        (List.mem_cons_of_mem c hc2mem)) hD1 hD2

/-- Counting occurrences of a member of a duplicate-free list gives
exactly one. -/
theorem countP_beq_eq_one_of_nodup {β : Type} [BEq β] [LawfulBEq β]
    {l : List β} {b : β} (hnd : l.Nodup) (hm : b ∈ l) :
    l.countP (fun x => x == b) = 1 := by
  induction l with
  | nil => cases hm
  | cons a t ih =>
      rw [List.countP_cons]
      by_cases hab : a = b
      · subst hab
        have hbt : a ∉ t := (List.nodup_cons.mp hnd).1
        have hz : t.countP (fun x => x == a) = 0 := by
          apply List.countP_eq_zero.mpr
          intro x hx hxb
          exact hbt ((by simpa using hxb : x = a) ▸ hx)
        simp [hz]
      · have hbt : b ∈ t := by
          rcases List.mem_cons.mp hm with he | ht
          · exact absurd he.symm hab
          · exact ht
        have hone := ih (List.Nodup.of_cons hnd) hbt
        simp [hone, hab]

/-- A folder whose parent chain reaches a root has a successfully built
subtree whose entries all appear in the root forest output. -/
theorem reaches_subtree_in_forest {folders : List Folder} {fuel : Nat}
    {rest : List HierarchyEntry}
    (hsf : subforestWith (subtreeFuel folders fuel)
      (folders.filter fun f => f.parent_id == none) 1 = some rest) :
    ∀ {f : Folder}, ReachesRoot folders f → f ∈ folders →
      ∃ (fuel2 lvl : Nat) (lf : List HierarchyEntry),
        subtreeFuel folders fuel2 f lvl = some lf ∧ ∀ e ∈ lf, e ∈ rest := by
  intro f hrr
  induction hrr with
  | root f2 hp =>
      intro hf
      have hroot : f2 ∈ folders.filter fun f3 => f3.parent_id == none :=
        List.mem_filter.mpr ⟨hf, by simp [hp]⟩
      obtain ⟨lf, hlf, hsub⟩ := subforestWith_some_mem hsf f2 hroot
      exact ⟨fuel, 1, lf, hlf, hsub⟩
  | step f2 g hg hfg hrrg ih =>
      intro hf
      obtain ⟨fuel2, lvl, lg, hsubg, hmemg⟩ := ih hg
      cases fuel2 with
      | zero =>
          rw [subtreeFuel_zero] at hsubg
          exact Option.noConfusion hsubg
      | succ k =>
          rw [subtreeFuel_succ] at hsubg
          cases hsfg : subforestWith (subtreeFuel folders k)
              (folders.filter fun c => c.parent_id == some g.id)
              (lvl + 1) with
          | none => rw [hsfg] at hsubg; exact Option.noConfusion hsubg
          | some restg =>
              rw [hsfg] at hsubg
              cases hsubg
              have hchild : f2 ∈ folders.filter
                  fun c => c.parent_id == some g.id :=
                List.mem_filter.mpr ⟨hf, by simp [hfg]⟩
              obtain ⟨lf, hlf, hsub⟩ := subforestWith_some_mem hsfg f2 hchild
              refine ⟨k, lvl + 1, lf, hlf, fun e he => ?_⟩
              exact hmemg _ (List.mem_cons_of_mem _ (hsub e he))

/-- C10: with unique ids and an acyclic parent relation, every folder
whose parent chain terminates at null appears exactly once in the built
hierarchy (counted by id, after the synthetic head entry, which carries
id `none`), and every folder whose `parent_id` names an id absent from
the input appears zero times. -/
theorem buildFolderHierarchy_each_folder_once
    (folders : List Folder) (fuel : Nat) (out : List HierarchyEntry)
    (hids : (folders.map Folder.id).Nodup) (hacyc : Acyclic folders)
    (hbuild : buildFolderHierarchy folders fuel = some out) :
    (∀ f ∈ folders, ReachesRoot folders f →
      out.countP (fun e => e.id == some f.id) = 1) ∧
    (∀ f ∈ folders, ∀ p, f.parent_id = some p →
      p ∉ folders.map Folder.id →
      out.countP (fun e => e.id == some f.id) = 0) := by
  rw [buildFolderHierarchy] at hbuild
  cases hsf : subforestWith (subtreeFuel folders fuel)
      (folders.filter fun f => f.parent_id == none) 1 with
  | none => rw [hsf] at hbuild; exact Option.noConfusion hbuild
  | some rest =>
      rw [hsf] at hbuild
      cases hbuild
      have hhead : ∀ f : Folder,
          (allNotesEntry :: rest).countP (fun e => e.id == some f.id) =
            rest.countP (fun e => e.id == some f.id) := by
        intro f
        rw [List.countP_cons]
        simp [allNotesEntry]
      have hnodup : (rest.map HierarchyEntry.id).Nodup := by
        apply (subtree_ids_nodup hids hacyc fuel).2
          (folders.filter fun f => f.parent_id == none) 1 rest
        · intro c hc
          exact (List.mem_filter.mp hc).1
        · apply List.Nodup.sublist
            (List.Sublist.map Folder.id (List.filter_sublist folders)) hids
        · intro c hc c2 hc2
          have h1 : c.parent_id = none := by
            simpa using (List.mem_filter.mp hc).2
          have h2 : c2.parent_id = none := by
            simpa using (List.mem_filter.mp hc2).2
          rw [h1, h2]
        · exact hsf
      constructor
      · intro f hf hrr
        rw [hhead]
        obtain ⟨fuel2, lvl, lf, hlf, hsub⟩ :=
          reaches_subtree_in_forest hsf hrr hf
        obtain ⟨rest2, hrest2⟩ := subtreeFuel_some_head hlf
        have hmem : some f.id ∈ rest.map HierarchyEntry.id := by
          apply List.mem_map.mpr
          refine ⟨hierEntry folders f lvl, ?_, rfl⟩
          apply hsub
          rw [hrest2]
          exact List.mem_cons_self _ _
        have hcount : rest.countP (fun e => e.id == some f.id) =
            (rest.map HierarchyEntry.id).countP (fun x => x == some f.id) := by
          rw [List.countP_map]
          rfl
        rw [hcount]
        exact countP_beq_eq_one_of_nodup hnodup hmem
      · intro f hf p hp hpnot
        rw [hhead]
        apply List.countP_eq_zero.mpr
        intro e he hbe
        have hfor := subforestWith_forall
          (P := fun c e => c ∈ folders →
            ∃ g ∈ folders, e.id = some g.id ∧
              Relation.ReflTransGen (pstep folders) c.id g.id ∧
              (g = c ∨ ∃ a ∈ folders, g.parent_id = some a.id))
          (fun c lvl2 l2 hs e2 he2 hc =>
            subtreeFuel_descend hc hs e2 he2) hsf e he
        obtain ⟨r, hrmem, hPr⟩ := hfor
        obtain ⟨hrf, hrp⟩ := List.mem_filter.mp hrmem
        have hrpar : r.parent_id = none := by simpa using hrp
        obtain ⟨g, hgf, hgid, _, hdisj⟩ := hPr hrf
        have heidf : e.id = some f.id := by simpa using hbe
        have hgidf : g.id = f.id := by
          apply Option.some.inj
          rw [← hgid, heidf]
        have hg_eq_f : g = f := List.inj_on_of_nodup_map hids hgf hf hgidf
        rcases hdisj with hgr | ⟨a, haf, hpa⟩
        · rw [hg_eq_f] at hgr
          rw [hgr, hrpar] at hp
          exact Option.noConfusion hp
        · rw [hg_eq_f, hp] at hpa
          have hpa2 : p = a.id := Option.some.inj hpa
          exact hpnot (hpa2 ▸ List.mem_map.mpr ⟨a, haf, rfl⟩)

/-- C10 witness: the exactly-once count for the middle folder of the
specification example, through the theorem. -/
theorem buildFolderHierarchy_each_folder_once_witness :
    ([allNotesEntry,
      ⟨some 1, "Folder1", 1, true, none⟩,
      ⟨some 2, "Folder2", 2, false, some 1⟩,
      ⟨some 3, "Folder3", 1, false, none⟩] :
        List HierarchyEntry).countP
      (fun e => e.id == some (2 : Int)) = 1 := by
  have hacyc : Acyclic sampleFolders := by
    apply acyclic_of_rank _ (fun i => if i = 1 then 1 else 0)
    rintro p c ⟨g, hg, rfl, hp⟩
    rcases List.mem_cons.mp hg with he | hg2
    · subst he; cases hp
    · rcases List.mem_cons.mp hg2 with he | hg3
      · subst he
        cases hp
        decide
      · rcases List.mem_cons.mp hg3 with he | hg4
        · subst he; cases hp
        · cases hg4
  have h := buildFolderHierarchy_each_folder_once sampleFolders 4
    [allNotesEntry,
      ⟨some 1, "Folder1", 1, true, none⟩,
      ⟨some 2, "Folder2", 2, false, some 1⟩,
      ⟨some 3, "Folder3", 1, false, none⟩]
    (by decide) hacyc (by decide)
  have hreach : ReachesRoot sampleFolders ⟨2, "Folder2", some 1⟩ := by
    apply ReachesRoot.step _ ⟨1, "Folder1", none⟩
    · exact List.mem_cons_self _ _
    · rfl
    · exact ReachesRoot.root _ rfl
  exact h.1 ⟨2, "Folder2", some 1⟩ (by decide) hreach
